import Mathlib

/-!
Verification of the `keytransform` package of daotl/go-workspace
(`src/guts/datastore/go-datastore/keytransform/keytransform.go`).

The package wraps a child datastore with an invertible key transform and
splits each incoming query into a `child` query (run natively by the child
store in physical key space) and a `naive` query (residual work applied by
the generic post-processor in logical key space).

Keys are modelled as their canonical string form (the `key` package is
external to this repository); values as byte lists.
-/

namespace Keytransform

/-- A key in canonical string form, totally ordered lexicographically. -/
abbrev Key := String

/-- A stored value (Go `[]byte`), modelled as a list of byte codes. -/
abbrev Value := List Nat

/-- Error values surfaced by the child store or by this layer.
`batchUnsupported` models `ds.ErrBatchUnsupported`; other child errors are
abstracted by a numeric code. -/
inductive Err where
  | batchUnsupported
  | notFound
  | other (code : Nat)
deriving DecidableEq, Repr

/-- `ds.ErrBatchUnsupported`, the unsupported-batching error. -/
def ErrBatchUnsupported : Err := .batchUnsupported

/-- The `KeyTransform` capability: the source switches on the dynamic type to
detect the order-preserving `PrefixTransform`, so we model the transform as a
closed sum: the `PrefixTransform` variant (which prepends/strips a fixed
prefix string) versus an arbitrary convert/invert pair. -/
inductive KeyTransform where
  | prefixT (pfx : String)
  | pair (conv inv : Key → Key)

/-- Whether string `p` is a (character-wise) prefix of string `s`. -/
def strStarts (p s : String) : Bool :=
  p.data.isPrefixOf s.data

/-- Drop the first `n` characters of a string. -/
def strDrop (s : String) (n : Nat) : String :=
  ⟨s.data.drop n⟩

/-- Lexicographic comparison of character lists (byte/codepoint order). -/
def charsCmp : List Char → List Char → Ordering
  | [], [] => .eq
  | [], _ :: _ => .lt
  | _ :: _, [] => .gt
  | a :: as, b :: bs =>
    if a.toNat < b.toNat then .lt
    else if b.toNat < a.toNat then .gt
    else charsCmp as bs

/-- Total lexicographic order on keys in canonical string form. -/
def compareKey (a b : Key) : Ordering :=
  charsCmp a.data b.data

/-- `a ≤ b` on keys. -/
def keyLe (a b : Key) : Bool :=
  compareKey a b ≠ .gt

/-- `a < b` on keys. -/
def keyLt (a b : Key) : Bool :=
  compareKey a b = .lt

/-- Lexicographic comparison of values (byte lists). -/
def valueCmp : Value → Value → Ordering
  | [], [] => .eq
  | [], _ :: _ => .lt
  | _ :: _, [] => .gt
  | a :: as, b :: bs =>
    if a < b then .lt else if b < a then .gt else valueCmp as bs

/-- `ConvertKey`: logical key to physical key. For `PrefixTransform` this
prepends the fixed prefix (modelled from the spec: the transform
"only prepends/strips a fixed prefix"; the transform implementations are
outside this repository's sources). -/
def KeyTransform.convertKey : KeyTransform → Key → Key
  | .prefixT p, k => p ++ k
  | .pair c _, k => c k

/-- `InvertKey`: physical key back to logical key. For `PrefixTransform`
this strips the fixed prefix (modelled from the spec, as for `convertKey`). -/
def KeyTransform.invertKey : KeyTransform → Key → Key
  | .prefixT p, k => strDrop k p.length
  | .pair _ i, k => i k

/-- The order-preservation check of `prepareQuery` (the
`switch d.KeyTransform.(type)` at lines 124-128): true exactly for the
`PrefixTransform` variant. -/
def KeyTransform.orderPreserving : KeyTransform → Bool
  | .prefixT _ => true
  | .pair _ _ => false

/-- `dsq.Order`: the recognized order kinds, plus `other` for any
unrecognized `dsq.Order` implementation (the source's `switch` default). -/
inductive Order where
  | byKey
  | byKeyDesc
  | byValue
  | byValueDesc
  | other (id : Nat)
deriving DecidableEq, Repr

/-- Comparison operator of a compare filter (`dsq.Op`). -/
inductive FilterOp where
  | eq | gt | gte | lt | lte
deriving DecidableEq, Repr

/-- `dsq.Filter`: the recognized filter kinds, plus `other` for any
unrecognized `dsq.Filter` implementation. The Go value and pointer variants
(`dsq.FilterKeyCompare` / `*dsq.FilterKeyCompare`, ...) are handled
identically by the source and are collapsed. -/
inductive Filter where
  | valueCompare (op : FilterOp) (v : Value)
  | keyCompare (op : FilterOp) (k : Key)
  | keyPfx (p : Key)
  | other (id : Nat)
deriving DecidableEq, Repr

/-- `dsq.Range`: optional half-open start/end key bounds. The Go zero value
`dsq.Range{}` has both bounds absent. -/
structure Range where
  start : Option Key := none
  stop : Option Key := none
deriving DecidableEq, Repr

/-- `dsq.Query`. The Go zero value has empty string key, zero range, nil
slices and zero offset/limit. -/
structure Query where
  qPfx : Key := ""
  range : Range := {}
  orders : List Order := []
  filters : List Filter := []
  offset : Nat := 0
  limit : Nat := 0
deriving DecidableEq, Repr

/-- Modelled from the spec: `key.Clean` canonicalizes a key to normalized
path form (the `key` package is outside this repository's sources). We model
root normalization and leading-slash enforcement. -/
def cleanKey (k : Key) : Key :=
  if k = "" then "/" else if strStarts "/" k then k else "/" ++ k

/-- Outcome of the `orders:` labelled loop of `prepareQuery`
(lines 131-162): either the whole list was scanned without incident,
or a by-key order under an order-preserving transform truncated the child's
list (`break orders` at line 149, carrying the inclusive length), or an
undelegable order forced full fallback (`break` at line 161). -/
inductive OrdersOutcome where
  | scanned
  | truncated (n : Nat)
  | fellback
deriving DecidableEq, Repr

/-- The `orders:` loop of `prepareQuery`: by-value orders are skipped; a
by-key order truncates (inclusive) when the transform is order-preserving
and otherwise falls back; any unrecognized order falls back. -/
def scanOrders (op : Bool) : List Order → OrdersOutcome
  | [] => .scanned
  | o :: rest =>
    match o with
    | .byValue | .byValueDesc =>
      match scanOrders op rest with
      | .truncated n => .truncated (n + 1)
      | .scanned => .scanned
      | .fellback => .fellback
    | .byKey | .byKeyDesc => if op then .truncated 1 else .fellback
    | .other _ => .fellback

/-- Per-filter rewriting of the filters loop of `prepareQuery`
(lines 169-195): value-compare passes unchanged, key-compare and key-prefix
filters have their key operand converted, anything else (`none`) forces
fallback. -/
def rewriteFilter (t : KeyTransform) : Filter → Option Filter
  | .valueCompare op v => some (.valueCompare op v)
  | .keyCompare op k => some (.keyCompare op (t.convertKey k))
  | .keyPfx p => some (.keyPfx (t.convertKey p))
  | .other _ => none

/-- The filters loop of `prepareQuery`: rewrite each filter in order;
`none` signals that an unrecognized filter forced fallback (in which case
the partially rewritten copy is discarded by the source, line 199). -/
def scanFilters (t : KeyTransform) : List Filter → Option (List Filter)
  | [] => some []
  | f :: rest =>
    match rewriteFilter t f with
    | some f₂ => (scanFilters t rest).map (f₂ :: ·)
    | none => none

/-- `Datastore.prepareQuery` (lines 104-207), split of the input query into
`(naive, child)`. `naive` is the named return value, starting at the Go zero
`Query`; `child` starts as a copy of `q`. The range conversion branches at
lines 115-120 test `child.Range` after it was just reset to the zero range
at line 114, so they never fire; they are kept faithfully. -/
def prepareQuery (t : KeyTransform) (q : Query) : Query × Query :=
  let naive : Query := {}
  let child : Query := q
  let child : Query := { child with qPfx := t.convertKey (cleanKey child.qPfx) }
  let child : Query := { child with range := {} }
  let child : Query :=
    match child.range.start with
    | some s => { child with range := { child.range with start := some (t.convertKey s) } }
    | none => child
  let child : Query :=
    match child.range.stop with
    | some e => { child with range := { child.range with stop := some (t.convertKey e) } }
    | none => child
  let op := t.orderPreserving
  let (naive, child) :=
    match scanOrders op child.orders with
    | .scanned => (naive, child)
    | .truncated n => (naive, { child with orders := child.orders.take n })
    | .fellback =>
        ({ naive with orders := q.orders, offset := q.offset, limit := q.limit },
         { child with orders := [], offset := 0, limit := 0 })
  let (naive, child) :=
    match scanFilters t child.filters with
    | some fs => (naive, { child with filters := fs })
    | none =>
        ({ naive with filters := q.filters, offset := q.offset, limit := q.limit },
         { child with filters := [], offset := 0, limit := 0 })
  (naive, child)

/-- Whether a filter is of one of the kinds recognized by the planner's
filters loop (everything except the `switch` default). -/
def Filter.recognized : Filter → Bool
  | .other _ => false
  | _ => true

/-- The rewriting `prepareQuery` applies to each recognized filter
(lines 171-194): key operands of key-compare and key-prefix filters are
converted, the operator is kept, and value-compare filters pass unchanged. -/
def rewriteKnown (t : KeyTransform) : Filter → Filter
  | .keyCompare op k => .keyCompare op (t.convertKey k)
  | .keyPfx p => .keyPfx (t.convertKey p)
  | f => f

/-- A logical-space store entry (key/value pair). -/
structure Entry where
  key : Key
  value : Value
deriving DecidableEq, Repr

/-- Modelled from the spec: whether a key falls under a query prefix
(descendant matching in normalized path form; the query executor is outside
this repository's sources). -/
def underQueryPfx (p k : Key) : Bool :=
  if p = "" ∨ p = "/" then true else strStarts (cleanKey p ++ "/") k

/-- Modelled from the spec: half-open range membership — the key is at or
after `start` and strictly before `stop`, absent bounds imposing nothing. -/
def inRange (r : Range) (k : Key) : Bool :=
  (match r.start with | none => true | some s => keyLe s k) &&
  (match r.stop with | none => true | some e => keyLt k e)

/-- Evaluate a comparison operator against an `Ordering`. -/
def FilterOp.eval (op : FilterOp) (o : Ordering) : Bool :=
  match op with
  | .eq => o = .eq
  | .gt => o = .gt
  | .gte => o ≠ .lt
  | .lt => o = .lt
  | .lte => o ≠ .gt

/-- Modelled from the spec: whether an entry passes a filter. Unrecognized
filters are given pass-all semantics (their behavior is irrelevant here:
the planner never delegates them). -/
def Filter.matches : Filter → Entry → Bool
  | .valueCompare op v, e => op.eval (valueCmp e.value v)
  | .keyCompare op k, e => op.eval (compareKey e.key k)
  | .keyPfx p, e => strStarts p e.key
  | .other _, _ => true

/-- Modelled from the spec: the comparison an order criterion induces on
entries. Unrecognized orders compare everything equal (irrelevant here: the
planner never delegates them). -/
def Order.cmp : Order → Entry → Entry → Ordering
  | .byKey, a, b => compareKey a.key b.key
  | .byKeyDesc, a, b => compareKey b.key a.key
  | .byValue, a, b => valueCmp a.value b.value
  | .byValueDesc, a, b => valueCmp b.value a.value
  | .other _, _, _ => .eq

/-- Lexicographic combination of an order list: first order is primary,
later orders break ties. -/
def ordersCmp (os : List Order) (a b : Entry) : Ordering :=
  match os with
  | [] => .eq
  | o :: rest =>
    match o.cmp a b with
    | .eq => ordersCmp rest a b
    | r => r

/-- Stable insertion into a sorted list: the new element goes after existing
elements that do not compare strictly greater. -/
def insertStable (cmp : Entry → Entry → Ordering) (e : Entry) : List Entry → List Entry
  | [] => [e]
  | x :: xs =>
    if cmp x e = .gt then e :: x :: xs else x :: insertStable cmp e xs

/-- Stable sort by insertion (ties keep stream order). -/
def sortStable (cmp : Entry → Entry → Ordering) : List Entry → List Entry
  | [] => []
  | x :: xs => insertStable cmp x (sortStable cmp xs)

/-- Modelled from the spec: apply an order list to an entry stream; an empty
list leaves the stream order untouched. -/
def applyOrders (os : List Order) (l : List Entry) : List Entry :=
  match os with
  | [] => l
  | _ => sortStable (ordersCmp os) l

/-- Modelled from the spec: full query application over a store's entry
stream — prefix, range, filters, orders, then offset and limit (a zero
limit means unlimited). This is the semantics of executing a query natively
against a store holding exactly `l`. -/
def applyQuery (q : Query) (l : List Entry) : List Entry :=
  let l := l.filter (fun e => underQueryPfx q.qPfx e.key)
  let l := l.filter (fun e => inRange q.range e.key)
  let l := l.filter (fun e => q.filters.all (·.matches e))
  let l := applyOrders q.orders l
  let l := l.drop q.offset
  if q.limit = 0 then l else l.take q.limit

/-- Modelled from the spec: `dsq.NaiveQueryApply`, the generic
post-processor — it replays prefix, filters, orders, offset and limit over
an arbitrary entry stream, but not `Range` ("Range is not part of this
implementation's naive fallback path"). -/
def naiveQueryApply (q : Query) (l : List Entry) : List Entry :=
  let l := l.filter (fun e => underQueryPfx q.qPfx e.key)
  let l := l.filter (fun e => q.filters.all (·.matches e))
  let l := applyOrders q.orders l
  let l := l.drop q.offset
  if q.limit = 0 then l else l.take q.limit

/-- The full query pipeline of `Datastore.Query` (lines 76-100), with the
child store's execution and the naive post-processor supplied by the
spec-modelled semantics above: split the query with `prepareQuery`, run the
child query against the physical image of the logical contents, invert each
result key, then apply the naive query. -/
def runQuery (t : KeyTransform) (q : Query) (logical : List Entry) : List Entry :=
  let (nq, cq) := prepareQuery t q
  let physical := logical.map (fun e => { e with key := t.convertKey e.key })
  let childResults := applyQuery cq physical
  let inverted := childResults.map (fun e => { e with key := t.invertKey e.key })
  naiveQueryApply nq inverted

/-- Modelled from the spec: the child batch handle buffers converted-key
put/delete operations until commit. -/
inductive BatchOp where
  | putOp (k : Key) (v : Value)
  | delOp (k : Key)
deriving DecidableEq, Repr

/-- Modelled from the spec: a child store's batch handle — a buffer of
operations plus the child-determined commit outcome. -/
structure ChildBatch where
  buffered : List BatchOp := []
  commitErr : Option Err := none
deriving DecidableEq, Repr

/-- Child batch `Put`: buffer a put operation. -/
def ChildBatch.put (b : ChildBatch) (k : Key) (v : Value) : ChildBatch :=
  { b with buffered := b.buffered ++ [.putOp k v] }

/-- Child batch `Delete`: buffer a delete operation. -/
def ChildBatch.delete (b : ChildBatch) (k : Key) : ChildBatch :=
  { b with buffered := b.buffered ++ [.delOp k] }

/-- Child batch `Commit`: the child-determined outcome. -/
def ChildBatch.commit (b : ChildBatch) : Option Err :=
  b.commitErr

/-- Modelled from the spec: the child store capability set consumed by this
layer, over an abstract store state `σ`. Each operation is an arbitrary
function of the child's, so theorems about the wrapper quantify over every
child behavior. `batching` is the optional atomic-batching capability (the
Go type assertion `d.child.(ds.Batching)`). -/
structure ChildStore (σ : Type) where
  put : σ → Key → Value → σ × Option Err
  sync : σ → Key → σ × Option Err
  get : σ → Key → Except Err Value
  has : σ → Key → Except Err Bool
  getSize : σ → Key → Except Err Nat
  delete : σ → Key → σ × Option Err
  batching : Option (Except Err ChildBatch) := none

/-- The wrapping `Datastore` (lines 32-36): a child store plus a key
transform. -/
structure Datastore (σ : Type) where
  child : ChildStore σ
  keyTransform : KeyTransform

/-- `Datastore.Put` (lines 44-46). -/
def Datastore.put (d : Datastore σ) (s : σ) (k : Key) (v : Value) : σ × Option Err :=
  d.child.put s (d.keyTransform.convertKey k) v

/-- `Datastore.Sync` (lines 49-51). -/
def Datastore.sync (d : Datastore σ) (s : σ) (k : Key) : σ × Option Err :=
  d.child.sync s (d.keyTransform.convertKey k)

/-- `Datastore.Get` (lines 54-56). -/
def Datastore.get (d : Datastore σ) (s : σ) (k : Key) : Except Err Value :=
  d.child.get s (d.keyTransform.convertKey k)

/-- `Datastore.Has` (lines 60-62). -/
def Datastore.has (d : Datastore σ) (s : σ) (k : Key) : Except Err Bool :=
  d.child.has s (d.keyTransform.convertKey k)

/-- `Datastore.GetSize` (lines 66-68). -/
def Datastore.getSize (d : Datastore σ) (s : σ) (k : Key) : Except Err Nat :=
  d.child.getSize s (d.keyTransform.convertKey k)

/-- `Datastore.Delete` (lines 71-73). -/
def Datastore.delete (d : Datastore σ) (s : σ) (k : Key) : σ × Option Err :=
  d.child.delete s (d.keyTransform.convertKey k)

/-- A `dsq.Result` of the child's result stream: an entry (key, value,
size) together with an optional per-entry error. -/
structure QResult where
  key : Key
  value : Value
  size : Nat
  err : Option Err := none
deriving DecidableEq, Repr

/-- The key-inverting iterator adapter of `Datastore.Query` (lines 84-94)
over the child's result stream: each pulled result with no error has its
key inverted; results carrying an error pass through unchanged. -/
def invertNext (t : KeyTransform) : List QResult → List QResult
  | [] => []
  | r :: rest =>
    let r₂ := if r.err.isNone then { r with key := t.invertKey r.key } else r
    r₂ :: invertNext t rest

/-- `transformBatch` (lines 234-238): the child's batch handle plus the
key mapping captured at `Batch` time. -/
structure TransformBatch where
  dst : ChildBatch
  f : Key → Key

/-- `transformBatch.Put` (lines 240-242). -/
def TransformBatch.put (t : TransformBatch) (k : Key) (v : Value) : TransformBatch :=
  { t with dst := t.dst.put (t.f k) v }

/-- `transformBatch.Delete` (lines 244-246). -/
def TransformBatch.delete (t : TransformBatch) (k : Key) : TransformBatch :=
  { t with dst := t.dst.delete (t.f k) }

/-- `transformBatch.Commit` (lines 248-250). -/
def TransformBatch.commit (t : TransformBatch) : Option Err :=
  t.dst.commit

/-- `Datastore.Batch` (lines 218-232): fail with `ErrBatchUnsupported` when
the child lacks the batching capability; otherwise create a child batch,
propagating its error, and wrap it with the convert mapping. -/
def Datastore.batch (d : Datastore σ) : Except Err TransformBatch :=
  match d.child.batching with
  | none => .error ErrBatchUnsupported
  | some mkb =>
    match mkb with
    | .error e => .error e
    | .ok cb => .ok { dst := cb, f := d.keyTransform.convertKey }

/-- A heap of Go slice backing arrays, for stating the frame property of
`prepareQuery` over caller-owned slices. A slice value is an index into the
heap (all slices involved view whole arrays). Both the caller's Filters
array and its Orders array live here. -/
structure SliceHeap where
  filterArrays : List (List Filter)
  orderArrays : List (List Order)
deriving DecidableEq, Repr

/-- In-place element write `arr[i] = f` on the filter array `id`
(the `child.Filters[i] = ...` assignments at lines 174-194). -/
def writeFilterAt (h : SliceHeap) (id i : Nat) (f : Filter) : SliceHeap :=
  { h with filterArrays := h.filterArrays.set id ((h.filterArrays.getD id []).set i f) }

/-- The filters loop of `prepareQuery` (lines 169-205) as heap operations:
`range` iterates over the snapshot of index/element pairs taken at loop
entry, each recognized filter is rewritten in place into the array `cid`,
and an unrecognized filter stops the loop, flagging fallback. -/
def filtersLoopHeap (t : KeyTransform) (cid : Nat) :
    List (Nat × Filter) → SliceHeap → SliceHeap × Bool
  | [], h => (h, false)
  | (i, f) :: rest, h =>
    match rewriteFilter t f with
    | some f₂ => filtersLoopHeap t cid rest (writeFilterAt h cid i f₂)
    | none => (h, true)

/-- `prepareQuery`'s slice effects, heap-explicit. On entry `child.Filters`
aliases the caller's array `qfid`; line 167
(`child.Filters = append([]dsq.Filter(nil), child.Filters...)`) allocates a
fresh backing array, and only that fresh array is written by the loop. The
orders scan (lines 131-162) performs only reslicing and slice-header
rebinding (lines 148, 155-156), never an element write, so it has no heap
effect and the caller's Orders array is carried through untouched. Returns
the final heap, the array now backing `child.Filters`, and the fallback
flag. -/
def prepareQueryHeap (t : KeyTransform) (h : SliceHeap) (qfid : Nat) :
    SliceHeap × Nat × Bool :=
  let content := h.filterArrays.getD qfid []
  let newId := h.filterArrays.length
  let h₂ : SliceHeap := { h with filterArrays := h.filterArrays ++ [content] }
  let (h₃, fellback) := filtersLoopHeap t newId content.enum h₂
  (h₃, newId, fellback)

/-! ## Theorems -/

/-- C1: the split produced by `prepareQuery` is NOT equivalent to applying
the original query against a logical-space store with the same contents:
with the identity transform, the query with `Range.Start = "/b"` over the
contents `[/a ↦ [0], /b ↦ [1]]` runs through the pipeline (child query,
key inversion, naive residual) to BOTH entries, while direct logical
application keeps only `/b` — `prepareQuery` resets the child's range to
the zero value before the (dead) bound-conversion branches, so the range is
silently dropped, contradicting the source's own comment "Always let the
child handle the key range". -/
theorem c1_pipeline_drops_range :
    runQuery (.pair id id) { qPfx := "/", range := { start := some "/b" } }
        [{ key := "/a", value := [0] }, { key := "/b", value := [1] }]
      = [{ key := "/a", value := [0] }, { key := "/b", value := [1] }] ∧
    applyQuery { qPfx := "/", range := { start := some "/b" } }
        [{ key := "/a", value := [0] }, { key := "/b", value := [1] }]
      = [{ key := "/b", value := [1] }] ∧
    runQuery (.pair id id) { qPfx := "/", range := { start := some "/b" } }
        [{ key := "/a", value := [0] }, { key := "/b", value := [1] }]
      ≠ applyQuery { qPfx := "/", range := { start := some "/b" } }
        [{ key := "/a", value := [0] }, { key := "/b", value := [1] }] := by
  refine ⟨rfl, rfl, ?_⟩
  decide

/-- C2: on a query carrying both range bounds, `prepareQuery` leaves the
naive query's range at the zero value (as claimed) but ALSO leaves the
child query's range at the zero value: the bounds are never rewritten
through `convertKey` and never delegated, because line 114 resets
`child.Range` before the conversion branches test it. -/
theorem c2_range_not_delegated :
    (prepareQuery (.prefixT "/ns")
        { qPfx := "/a", range := { start := some "/b", stop := some "/d" } }).1.range
      = ({} : Range) ∧
    (prepareQuery (.prefixT "/ns")
        { qPfx := "/a", range := { start := some "/b", stop := some "/d" } }).2.range
      = ({} : Range) ∧
    (prepareQuery (.prefixT "/ns")
        { qPfx := "/a", range := { start := some "/b", stop := some "/d" } }).2.range
      ≠ { start := some ((KeyTransform.prefixT "/ns").convertKey "/b"),
          stop := some ((KeyTransform.prefixT "/ns").convertKey "/d") } := by
  refine ⟨rfl, rfl, ?_⟩
  decide

/-- C6: every point operation of the wrapper calls the same child operation
with the converted key and identical other arguments, returning the child's
result and error unchanged. -/
theorem c6_point_ops_delegate {σ : Type} (d : Datastore σ) (s : σ) (k : Key) (v : Value) :
    d.put s k v = d.child.put s (d.keyTransform.convertKey k) v ∧
    d.get s k = d.child.get s (d.keyTransform.convertKey k) ∧
    d.has s k = d.child.has s (d.keyTransform.convertKey k) ∧
    d.getSize s k = d.child.getSize s (d.keyTransform.convertKey k) ∧
    d.delete s k = d.child.delete s (d.keyTransform.convertKey k) ∧
    d.sync s k = d.child.sync s (d.keyTransform.convertKey k) :=
  ⟨rfl, rfl, rfl, rfl, rfl, rfl⟩

/-- The iterator adapter is pointwise: it maps each result, inverting the
key exactly when the result carries no error. -/
theorem invertNext_eq_map (t : KeyTransform) (rs : List QResult) :
    invertNext t rs
      = rs.map (fun r => if r.err.isNone then { r with key := t.invertKey r.key } else r) := by
  induction rs with
  | nil => rfl
  | cons r rest ih => simp [invertNext, ih]

/-- C7: the key-inverting adapter yields exactly one result per child
result, in the same relative order; a result with no error is yielded with
its key replaced by `invertKey` and its value, size and error unchanged,
and a result carrying an error is passed through entirely unchanged. -/
theorem c7_result_key_inversion (t : KeyTransform) (rs : List QResult) :
    (invertNext t rs).length = rs.length ∧
    ∀ i (h : i < rs.length) (h₂ : i < (invertNext t rs).length),
      (invertNext t rs).get ⟨i, h₂⟩ =
        (if (rs.get ⟨i, h⟩).err.isNone
         then { rs.get ⟨i, h⟩ with key := t.invertKey (rs.get ⟨i, h⟩).key }
         else rs.get ⟨i, h⟩) := by
  constructor
  · simp [invertNext_eq_map]
  · intro i h h₂
    simp [invertNext_eq_map]

/-- Witness for C7 at a concrete stream: an error-free result gets its
prefix stripped, while the errored result at the next index is untouched. -/
theorem c7_result_key_inversion_witness :
    (invertNext (.prefixT "/ns")
        [{ key := "/ns/a", value := [1], size := 1 },
         { key := "/x", value := [2], size := 2, err := some (Err.other 3) }]).get
      ⟨0, by decide⟩ = { key := "/a", value := [1], size := 1 } ∧
    (invertNext (.prefixT "/ns")
        [{ key := "/ns/a", value := [1], size := 1 },
         { key := "/x", value := [2], size := 2, err := some (Err.other 3) }]).get
      ⟨1, by decide⟩ = { key := "/x", value := [2], size := 2, err := some (Err.other 3) } := by
  have h := c7_result_key_inversion (.prefixT "/ns")
      [{ key := "/ns/a", value := [1], size := 1 },
       { key := "/x", value := [2], size := 2, err := some (Err.other 3) }]
  exact ⟨(h.2 0 (by decide) (by decide)).trans (by decide),
         (h.2 1 (by decide) (by decide)).trans (by decide)⟩

/-- C10: when the child lacks the batching capability, `batch` fails with
`ErrBatchUnsupported` and produces no handle; when the child provides a
batch, its creation error propagates, and the returned wrapper buffers
`put`/`delete` against the child batch under the converted key and
delegates `commit` verbatim. -/
theorem c10_batch_semantics {σ : Type} (d : Datastore σ) (cb : ChildBatch)
    (e : Err) (k k₂ : Key) (v : Value) :
    (d.child.batching = none → d.batch = .error ErrBatchUnsupported) ∧
    (d.child.batching = some (.error e) → d.batch = .error e) ∧
    (d.child.batching = some (.ok cb) →
      d.batch = .ok { dst := cb, f := d.keyTransform.convertKey } ∧
      (TransformBatch.put { dst := cb, f := d.keyTransform.convertKey } k v).dst
        = cb.put (d.keyTransform.convertKey k) v ∧
      (TransformBatch.delete { dst := cb, f := d.keyTransform.convertKey } k₂).dst
        = cb.delete (d.keyTransform.convertKey k₂) ∧
      TransformBatch.commit { dst := cb, f := d.keyTransform.convertKey } = cb.commit) := by
  refine ⟨?_, ?_, ?_⟩
  · intro hb
    simp [Datastore.batch, hb]
  · intro hb
    simp [Datastore.batch, hb]
  · intro hb
    exact ⟨by simp [Datastore.batch, hb], rfl, rfl, rfl⟩

/-- Witness for C10 at a concrete child: batching absent yields the
unsupported error; batching present yields the wrapper, whose operations
buffer converted-key ops. -/
theorem c10_batch_semantics_witness :
    (Datastore.batch (σ := Unit)
        { child := { put := fun s _ _ => (s, none), sync := fun s _ => (s, none),
                     get := fun _ _ => .error .notFound, has := fun _ _ => .ok false,
                     getSize := fun _ _ => .error .notFound,
                     delete := fun s _ => (s, none), batching := none },
          keyTransform := .prefixT "/ns" }
      = .error ErrBatchUnsupported) ∧
    (TransformBatch.put
        { dst := { buffered := [] }, f := (KeyTransform.prefixT "/ns").convertKey } "/a" [7]).dst
      = ChildBatch.put { buffered := [] } ((KeyTransform.prefixT "/ns").convertKey "/a") [7] := by
  have h := c10_batch_semantics (σ := Unit)
      { child := { put := fun s _ _ => (s, none), sync := fun s _ => (s, none),
                   get := fun _ _ => .error .notFound, has := fun _ _ => .ok false,
                   getSize := fun _ _ => .error .notFound,
                   delete := fun s _ => (s, none), batching := none },
        keyTransform := .prefixT "/ns" }
      { buffered := [] } .notFound "/a" "/b" [7]
  exact ⟨h.1 rfl, rfl⟩

/-- C4: whenever the orders scan forces fallback, the entire original
orders list is copied to the naive query and cleared on the child query;
whenever the filters scan forces fallback, likewise for filters; and in
either case offset and limit are cleared (zero) on the child query and
reinstated with the original values on the naive query. -/
theorem c4_fallback_completeness (t : KeyTransform) (q : Query) :
    (scanOrders t.orderPreserving q.orders = .fellback →
      (prepareQuery t q).1.orders = q.orders ∧ (prepareQuery t q).2.orders = [] ∧
      (prepareQuery t q).2.offset = 0 ∧ (prepareQuery t q).2.limit = 0 ∧
      (prepareQuery t q).1.offset = q.offset ∧ (prepareQuery t q).1.limit = q.limit) ∧
    (scanFilters t q.filters = none →
      (prepareQuery t q).1.filters = q.filters ∧ (prepareQuery t q).2.filters = [] ∧
      (prepareQuery t q).2.offset = 0 ∧ (prepareQuery t q).2.limit = 0 ∧
      (prepareQuery t q).1.offset = q.offset ∧ (prepareQuery t q).1.limit = q.limit) := by
  constructor
  · intro ho
    cases hf : scanFilters t q.filters <;> simp [prepareQuery, ho, hf]
  · intro hf
    cases ho : scanOrders t.orderPreserving q.orders <;> simp [prepareQuery, ho, hf]

/-- Witness for C4 at a concrete query whose single order and single filter
both force fallback: orders and filters land on the naive query, offset and
limit are cleared on the child and reinstated on the naive query. -/
theorem c4_fallback_completeness_witness :
    (prepareQuery (.pair id id)
        { orders := [.byKey], filters := [.other 0], offset := 3, limit := 5 }).1.orders
      = [.byKey] ∧
    (prepareQuery (.pair id id)
        { orders := [.byKey], filters := [.other 0], offset := 3, limit := 5 }).1.filters
      = [.other 0] ∧
    (prepareQuery (.pair id id)
        { orders := [.byKey], filters := [.other 0], offset := 3, limit := 5 }).2.offset = 0 ∧
    (prepareQuery (.pair id id)
        { orders := [.byKey], filters := [.other 0], offset := 3, limit := 5 }).1.offset = 3 ∧
    (prepareQuery (.pair id id)
        { orders := [.byKey], filters := [.other 0], offset := 3, limit := 5 }).1.limit = 5 := by
  have h := c4_fallback_completeness (.pair id id)
      { orders := [.byKey], filters := [.other 0], offset := 3, limit := 5 }
  have h₁ := h.1 (by decide)
  have h₂ := h.2 (by decide)
  exact ⟨h₁.1, h₂.1, h₁.2.2.1, h₁.2.2.2.2.1, h₁.2.2.2.2.2⟩

/-- When every filter is of a recognized kind, the filters scan succeeds
and produces exactly the per-kind rewriting, position by position. -/
theorem scanFilters_all_recognized (t : KeyTransform) (fs : List Filter)
    (h : fs.all Filter.recognized = true) :
    scanFilters t fs = some (fs.map (rewriteKnown t)) := by
  induction fs with
  | nil => rfl
  | cons f rest ih =>
    simp only [List.all_cons, Bool.and_eq_true] at h
    cases f with
    | valueCompare op v => simp [scanFilters, rewriteFilter, rewriteKnown, ih h.2]
    | keyCompare op k => simp [scanFilters, rewriteFilter, rewriteKnown, ih h.2]
    | keyPfx p => simp [scanFilters, rewriteFilter, rewriteKnown, ih h.2]
    | other id => simp [Filter.recognized] at h

/-- C5: for a query whose filters are all of recognized kinds, the child
query's filters are the original list rewritten position by position:
key-prefix filters get their prefix converted, key-compare filters get
their key operand converted with the operator kept, and value-compare
filters pass through unchanged. -/
theorem c5_filter_rewriting (t : KeyTransform) (q : Query)
    (h : q.filters.all Filter.recognized = true) :
    (prepareQuery t q).2.filters = q.filters.map (rewriteKnown t) ∧
    (∀ op v, rewriteKnown t (.valueCompare op v) = .valueCompare op v) ∧
    (∀ op k, rewriteKnown t (.keyCompare op k) = .keyCompare op (t.convertKey k)) ∧
    (∀ p, rewriteKnown t (.keyPfx p) = .keyPfx (t.convertKey p)) := by
  refine ⟨?_, fun _ _ => rfl, fun _ _ => rfl, fun _ => rfl⟩
  have hf := scanFilters_all_recognized t q.filters h
  cases ho : scanOrders t.orderPreserving q.orders <;> simp [prepareQuery, ho, hf]

/-- Witness for C5 at a concrete query holding one filter of each
recognized kind under the `/ns` prefix transform. -/
theorem c5_filter_rewriting_witness :
    (prepareQuery (.prefixT "/ns")
        { filters := [.valueCompare .eq [2], .keyCompare .lt "/a", .keyPfx "/p"] }).2.filters
      = [.valueCompare .eq [2], .keyCompare .lt "/ns/a", .keyPfx "/ns/p"] := by
  have h := c5_filter_rewriting (.prefixT "/ns")
      { filters := [.valueCompare .eq [2], .keyCompare .lt "/a", .keyPfx "/p"] } (by decide)
  exact h.1.trans (by decide)

/-- Under an order-preserving transform, scanning orders that are all
by-value until a by-key order truncates inclusively at that order. -/
theorem scanOrders_truncates (pre rest : List Order) (k : Order)
    (hpre : ∀ o ∈ pre, o = Order.byValue ∨ o = Order.byValueDesc)
    (hk : k = Order.byKey ∨ k = Order.byKeyDesc) :
    scanOrders true (pre ++ k :: rest) = .truncated (pre.length + 1) := by
  induction pre with
  | nil =>
    rcases hk with hk | hk <;> subst hk <;> rfl
  | cons o pre₂ ih =>
    have ho := hpre o (List.mem_cons_self o pre₂)
    have ih₂ := ih (fun o₂ ho₂ => hpre o₂ (List.mem_cons_of_mem o ho₂))
    rcases ho with ho | ho <;> subst ho <;>
      simp [scanOrders, ih₂, Nat.add_assoc, Nat.add_comm]

/-- Truncating a list at the pivot, inclusively. -/
theorem take_append_pivot (pre rest : List Order) (k : Order) :
    (pre ++ k :: rest).take (pre.length + 1) = pre ++ [k] := by
  induction pre with
  | nil => rfl
  | cons o pre₂ ih => simp [List.take, ih]

/-- Under a non-order-preserving transform, any orders list containing a
by-key order (ascending or descending) falls back. -/
theorem scanOrders_fellback (l : List Order)
    (hmem : Order.byKey ∈ l ∨ Order.byKeyDesc ∈ l) :
    scanOrders false l = .fellback := by
  induction l with
  | nil => rcases hmem with hmem | hmem <;> cases hmem
  | cons o rest ih =>
    cases o with
    | byKey => rfl
    | byKeyDesc => rfl
    | byValue =>
      have hrest : Order.byKey ∈ rest ∨ Order.byKeyDesc ∈ rest := by
        rcases hmem with hmem | hmem
        · exact Or.inl (by cases hmem with | tail _ hh => exact hh)
        · exact Or.inr (by cases hmem with | tail _ hh => exact hh)
      simp [scanOrders, ih hrest]
    | byValueDesc =>
      have hrest : Order.byKey ∈ rest ∨ Order.byKeyDesc ∈ rest := by
        rcases hmem with hmem | hmem
        · exact Or.inl (by cases hmem with | tail _ hh => exact hh)
        · exact Or.inr (by cases hmem with | tail _ hh => exact hh)
      simp [scanOrders, ih hrest]
    | other n =>
      rfl

/-- C3 (amended): when the transform is the order-preserving
`PrefixTransform` and every order preceding the first by-key order is a
by-value order, ordering is fully delegated: the child's orders are
truncated to end at that by-key order inclusive, the naive query has empty
orders, and — provided no filter forces its own fallback — zero offset and
zero limit. When the transform is not order-preserving, any query
containing a by-key order falls back entirely: the whole original orders
list goes to the naive query and the child's orders, offset and limit are
cleared. -/
theorem c3_order_gating (t : KeyTransform) (q : Query) (pre rest : List Order) (k : Order) :
    (t.orderPreserving = true →
      q.orders = pre ++ k :: rest →
      (∀ o ∈ pre, o = Order.byValue ∨ o = Order.byValueDesc) →
      (k = Order.byKey ∨ k = Order.byKeyDesc) →
      (prepareQuery t q).2.orders = pre ++ [k] ∧
      (prepareQuery t q).1.orders = [] ∧
      (q.filters.all Filter.recognized = true →
        (prepareQuery t q).1.offset = 0 ∧ (prepareQuery t q).1.limit = 0)) ∧
    (t.orderPreserving = false →
      (Order.byKey ∈ q.orders ∨ Order.byKeyDesc ∈ q.orders) →
      (prepareQuery t q).1.orders = q.orders ∧ (prepareQuery t q).2.orders = [] ∧
      (prepareQuery t q).2.offset = 0 ∧ (prepareQuery t q).2.limit = 0) := by
  constructor
  · intro hop hq hpre hk
    have hs : scanOrders t.orderPreserving q.orders = .truncated (pre.length + 1) := by
      rw [hop, hq]
      exact scanOrders_truncates pre rest k hpre hk
    refine ⟨?_, ?_, ?_⟩
    · cases hf : scanFilters t q.filters <;>
        · simp [prepareQuery, hs, hf]
          rw [hq]
          exact take_append_pivot pre rest k
    · cases hf : scanFilters t q.filters <;> simp [prepareQuery, hs, hf]
    · intro hrec
      have hf := scanFilters_all_recognized t q.filters hrec
      simp [prepareQuery, hs, hf]
  · intro hop hmem
    have hs : scanOrders t.orderPreserving q.orders = .fellback := by
      rw [hop]
      exact scanOrders_fellback q.orders hmem
    cases hf : scanFilters t q.filters <;> simp [prepareQuery, hs, hf]

/-- C3 counterexample: as literally stated the claim fails — under the
order-preserving `PrefixTransform`, a query containing a by-key order that
is preceded by an unrecognized order is NOT delegated: the scan falls back
at the unrecognized order, the naive query receives the entire orders list
(so its orders are not empty) and, with an unrecognized filter present, the
naive offset is the original value rather than zero. -/
theorem c3_counterexample :
    (prepareQuery (.prefixT "/ns")
        { orders := [.other 0, .byKey], filters := [.other 1], offset := 5, limit := 7 }).1.orders
      = [.other 0, .byKey] ∧
    (prepareQuery (.prefixT "/ns")
        { orders := [.other 0, .byKey], filters := [.other 1], offset := 5, limit := 7 }).1.orders
      ≠ [] ∧
    (prepareQuery (.prefixT "/ns")
        { orders := [.other 0, .byKey], filters := [.other 1], offset := 5, limit := 7 }).1.offset
      ≠ 0 := by
  refine ⟨rfl, ?_, ?_⟩ <;> decide

/-- Witness for C3 at concrete queries: delegation under `PrefixTransform`
with a by-value order before the by-key order, and full fallback under a
non-order-preserving transform. -/
theorem c3_order_gating_witness :
    (prepareQuery (.prefixT "/ns")
        { orders := [.byValue, .byKey, .byValueDesc], offset := 7, limit := 9 }).2.orders
      = [.byValue, .byKey] ∧
    (prepareQuery (.prefixT "/ns")
        { orders := [.byValue, .byKey, .byValueDesc], offset := 7, limit := 9 }).1.orders
      = [] ∧
    (prepareQuery (.prefixT "/ns")
        { orders := [.byValue, .byKey, .byValueDesc], offset := 7, limit := 9 }).1.offset = 0 ∧
    (prepareQuery (.pair id id) { orders := [.byKeyDesc], offset := 7, limit := 9 }).1.orders
      = [.byKeyDesc] ∧
    (prepareQuery (.pair id id) { orders := [.byKeyDesc], offset := 7, limit := 9 }).2.offset
      = 0 := by
  have hA := (c3_order_gating (.prefixT "/ns")
      { orders := [.byValue, .byKey, .byValueDesc], offset := 7, limit := 9 }
      [.byValue] [.byValueDesc] .byKey).1 rfl rfl (by decide) (Or.inl rfl)
  have hB := (c3_order_gating (.pair id id)
      { orders := [.byKeyDesc], offset := 7, limit := 9 }
      [] [] .byKey).2 rfl (Or.inr (List.mem_cons_self _ _))
  exact ⟨hA.1.trans (by decide), hA.2.1, (hA.2.2 (by decide)).1, hB.1, hB.2.2.1⟩

/-- C8 counterexample: the naive query does NOT start as a copy of the
input query — it is the Go zero `Query`. For the all-delegable query with
offset 1 and limit 2 (no orders, no filters), the naive query's offset and
limit stay zero instead of equalling the input's. -/
theorem c8_counterexample :
    (prepareQuery (.prefixT "/ns") { offset := 1, limit := 2 }).1.offset
      ≠ ({ offset := 1, limit := 2 : Query }).offset ∧
    (prepareQuery (.prefixT "/ns") { offset := 1, limit := 2 }).1.limit
      ≠ ({ offset := 1, limit := 2 : Query }).limit := by
  constructor <;> decide

/-- C8 (amended): the child query starts as a copy of `q` while the naive
query starts as the zero-value query; for a query whose concerns are all
delegable (neither the orders scan nor the filters scan falls back), the
naive query's orders/filters stay empty and its offset, limit, range and
prefix stay at their zero values, while the child query retains `q`'s
offset and limit and carries the converted prefix. -/
theorem c8_split_initialization (t : KeyTransform) (q : Query)
    (h₁ : scanOrders t.orderPreserving q.orders ≠ .fellback)
    (h₂ : scanFilters t q.filters ≠ none) :
    (prepareQuery t q).1.orders = [] ∧ (prepareQuery t q).1.filters = [] ∧
    (prepareQuery t q).1.offset = 0 ∧ (prepareQuery t q).1.limit = 0 ∧
    (prepareQuery t q).1.range = ({} : Range) ∧ (prepareQuery t q).1.qPfx = "" ∧
    (prepareQuery t q).2.offset = q.offset ∧ (prepareQuery t q).2.limit = q.limit ∧
    (prepareQuery t q).2.qPfx = t.convertKey (cleanKey q.qPfx) := by
  cases ho : scanOrders t.orderPreserving q.orders with
  | fellback => exact absurd ho h₁
  | scanned =>
    cases hf : scanFilters t q.filters with
    | none => exact absurd hf h₂
    | some fs => simp [prepareQuery, ho, hf]
  | truncated n =>
    cases hf : scanFilters t q.filters with
    | none => exact absurd hf h₂
    | some fs => simp [prepareQuery, ho, hf]

/-- Witness for C8 at a concrete all-delegable query with nonzero offset
and limit: the naive side is the zero query, the child side keeps the
offset and limit and converts the prefix. -/
theorem c8_split_initialization_witness :
    (prepareQuery (.prefixT "/ns")
        { qPfx := "/a", orders := [.byValue], filters := [.keyPfx "/p"],
          offset := 4, limit := 6 }).1.offset = 0 ∧
    (prepareQuery (.prefixT "/ns")
        { qPfx := "/a", orders := [.byValue], filters := [.keyPfx "/p"],
          offset := 4, limit := 6 }).2.offset = 4 ∧
    (prepareQuery (.prefixT "/ns")
        { qPfx := "/a", orders := [.byValue], filters := [.keyPfx "/p"],
          offset := 4, limit := 6 }).2.limit = 6 ∧
    (prepareQuery (.prefixT "/ns")
        { qPfx := "/a", orders := [.byValue], filters := [.keyPfx "/p"],
          offset := 4, limit := 6 }).2.qPfx = "/ns/a" := by
  have h := c8_split_initialization (.prefixT "/ns")
      { qPfx := "/a", orders := [.byValue], filters := [.keyPfx "/p"], offset := 4, limit := 6 }
      (by decide) (by decide)
  exact ⟨h.2.2.1, h.2.2.2.2.2.2.1, h.2.2.2.2.2.2.2.1, h.2.2.2.2.2.2.2.2.trans (by decide)⟩

/-- Writing one array cell leaves every other array's contents unchanged. -/
theorem getD_set_ne {α : Type} (l : List α) (i j : Nat) (a : α) (d : α) (hij : i ≠ j) :
    (l.set i a).getD j d = l.getD j d := by
  induction l generalizing i j with
  | nil => simp
  | cons x xs ih =>
    cases i with
    | zero =>
      cases j with
      | zero => exact absurd rfl hij
      | succ j₂ => simp
    | succ i₂ =>
      cases j with
      | zero => simp
      | succ j₂ => simpa using ih i₂ j₂ (fun hh => hij (by rw [hh]))

/-- The heap-explicit filters loop writes only into the array `cid`: every
other filter array, and the whole orders side of the heap, is unchanged. -/
theorem filtersLoopHeap_preserves (t : KeyTransform) (cid : Nat) (ps : List (Nat × Filter))
    (h : SliceHeap) (j : Nat) (hne : j ≠ cid) :
    ((filtersLoopHeap t cid ps h).1.filterArrays.getD j [] = h.filterArrays.getD j []) ∧
    (filtersLoopHeap t cid ps h).1.orderArrays = h.orderArrays := by
  induction ps generalizing h with
  | nil => exact ⟨rfl, rfl⟩
  | cons p rest ih =>
    obtain ⟨i, f⟩ := p
    cases hr : rewriteFilter t f with
    | none => simp [filtersLoopHeap, hr]
    | some f₂ =>
      have hstep := ih (writeFilterAt h cid i f₂)
      refine ⟨?_, ?_⟩
      · rw [show (filtersLoopHeap t cid ((i, f) :: rest) h)
              = filtersLoopHeap t cid rest (writeFilterAt h cid i f₂) by
            simp [filtersLoopHeap, hr]]
        rw [hstep.1]
        exact getD_set_ne _ cid j _ _ (fun hh => hne hh.symm)
      · rw [show (filtersLoopHeap t cid ((i, f) :: rest) h)
              = filtersLoopHeap t cid rest (writeFilterAt h cid i f₂) by
            simp [filtersLoopHeap, hr]]
        exact hstep.2

/-- C9: `prepareQuery` never mutates the caller-owned backing arrays: for
any valid caller Filters array `qfid`, the heap-explicit planner leaves
that array's contents — and the whole orders side of the heap — exactly as
they were; all rewriting lands in the freshly allocated copy. -/
theorem c9_no_mutation (t : KeyTransform) (h : SliceHeap) (qfid : Nat)
    (hlt : qfid < h.filterArrays.length) :
    ((prepareQueryHeap t h qfid).1.filterArrays.getD qfid []
       = h.filterArrays.getD qfid []) ∧
    (prepareQueryHeap t h qfid).1.orderArrays = h.orderArrays := by
  have hne : qfid ≠ h.filterArrays.length := Nat.ne_of_lt hlt
  have hp := filtersLoopHeap_preserves t h.filterArrays.length
      (h.filterArrays.getD qfid []).enum
      { h with filterArrays := h.filterArrays ++ [h.filterArrays.getD qfid []] } qfid hne
  refine ⟨?_, ?_⟩
  · rw [show (prepareQueryHeap t h qfid).1
        = (filtersLoopHeap t h.filterArrays.length (h.filterArrays.getD qfid []).enum
            { h with filterArrays := h.filterArrays ++ [h.filterArrays.getD qfid []] }).1
        from rfl]
    rw [hp.1]
    exact List.getD_append _ _ _ _ hlt
  · rw [show (prepareQueryHeap t h qfid).1
        = (filtersLoopHeap t h.filterArrays.length (h.filterArrays.getD qfid []).enum
            { h with filterArrays := h.filterArrays ++ [h.filterArrays.getD qfid []] }).1
        from rfl]
    exact hp.2

/-- Witness for C9 at a concrete heap holding one Filters array (with a
rewritable and an unrecognized filter) and one Orders array: both are
untouched by the planner. -/
theorem c9_no_mutation_witness :
    ((prepareQueryHeap (.prefixT "/ns")
        { filterArrays := [[.keyPfx "/p", .keyCompare .lt "/a"]], orderArrays := [[.byKey]] }
        0).1.filterArrays.getD 0 [] = [.keyPfx "/p", .keyCompare .lt "/a"]) ∧
    ((prepareQueryHeap (.prefixT "/ns")
        { filterArrays := [[.keyPfx "/p", .keyCompare .lt "/a"]], orderArrays := [[.byKey]] }
        0).1.orderArrays = [[.byKey]]) := by
  have h := c9_no_mutation (.prefixT "/ns")
      { filterArrays := [[.keyPfx "/p", .keyCompare .lt "/a"]], orderArrays := [[.byKey]] }
      0 (by decide)
  exact ⟨h.1.trans (by decide), h.2.trans (by decide)⟩

end Keytransform
